import Mathlib

/-!
Verification of the graph-construction and serialization utilities of the
repository's causal-discovery notebook: `make_graph`, which turns a numeric
adjacency matrix and an optional list of node labels into a directed graph,
and `str_to_dot`, which normalizes the rendered textual form of that graph
into a single-line directed-graph description.

Modelling choices: Python strings are lists of characters, numeric matrix
entries are rationals, and operations that can raise a Python exception
(list indexing out of range) return `Option`.
-/

namespace CausalGraphUtil

/-- Python strings are modelled as lists of characters. -/
abbrev Str := List Char

/-- The `graphviz.Digraph` object as `make_graph` uses it: a list of declared
node statements in insertion order, and a list of declared edge statements
`(source, target, label)` in insertion order. -/
structure Digraph where
  nodes : List Str
  edges : List (Str × Str × Str)
  deriving DecidableEq

/-- The weight threshold `0.01` of `np.abs(adjacency_matrix) > 0.01`,
written with `mkRat` so that the kernel can evaluate it. -/
def threshold : ℚ := mkRat 1 100

/-- `np.abs` on one entry: the absolute value, written as a case split so
that the kernel can evaluate it. -/
def ratAbs (q : ℚ) : ℚ := if q < 0 then -q else q

/-- `np.abs(adjacency_matrix) > 0.01`: the elementwise boolean mask of the
matrix cells whose absolute value strictly exceeds the threshold. -/
def bool_mask (m : List (List ℚ)) : List (List Bool) :=
  m.map (fun row => row.map (fun v => decide (threshold < ratAbs v)))

/-- Helper for `np_where`: indices of the `true` entries of one mask row,
`i` being the row index and `j` the column index of the first entry. -/
def whereRow (i : Nat) : Nat → List Bool → List (Nat × Nat)
  | _, [] => []
  | j, b :: bs => if b then (i, j) :: whereRow i (j + 1) bs else whereRow i (j + 1) bs

/-- Helper for `np_where`: row-major traversal of the mask starting at row `i`. -/
def whereAux : Nat → List (List Bool) → List (Nat × Nat)
  | _, [] => []
  | i, row :: rows => whereRow i 0 row ++ whereAux (i + 1) rows

/-- `np.where(idx)` on a 2-d boolean mask: the positions of the `true`
entries in row-major order.  The source unpacks the result as the pair of
arrays `dirs[0]` (row indices) and `dirs[1]` (column indices); here the two
arrays are kept zipped as a list of `(row, col)` pairs. -/
def np_where (mask : List (List Bool)) : List (Nat × Nat) :=
  whereAux 0 mask

/-- Helper for `mask_select`: the entries of one row selected by one mask row. -/
def selectRow : List ℚ → List Bool → List ℚ
  | [], _ => []
  | _ :: _, [] => []
  | v :: vs, b :: bs => if b then v :: selectRow vs bs else selectRow vs bs

/-- `adjacency_matrix[idx]`: boolean-mask fancy indexing, returning the
selected entries in row-major order. -/
def mask_select (m : List (List ℚ)) (mask : List (List Bool)) : List ℚ :=
  ((m.zip mask).map (fun p => selectRow p.1 p.2)).flatten

/-- Decimal digit characters of the fractional part of the fraction
`num / den` (with `num < den`), produced by the schoolbook expansion and cut
off by the fuel; models the digits Python's `str` prints after the point for
a float with a terminating decimal expansion. -/
def fracDigitsN : Nat → Nat → Nat → List Char
  | 0, _, _ => []
  | fuel + 1, num, den =>
    if num = 0 then []
    else Nat.digitChar (num * 10 / den) :: fracDigitsN fuel (num * 10 % den) den

/-- Decimal digit characters of a natural number, most significant first;
models Python's `str` on a nonnegative integer. -/
def natCharsAux : Nat → Nat → List Char
  | 0, _ => []
  | fuel + 1, n =>
    if n < 10 then [Nat.digitChar n]
    else natCharsAux fuel (n / 10) ++ [Nat.digitChar (n % 10)]

/-- Decimal digit characters of a natural number. -/
def natChars (n : Nat) : List Char :=
  natCharsAux (n + 1) n

/-- Decimal string of the nonnegative fraction `num / den`: integer part,
point, then fractional digits (a single `0` when the fraction is integral,
matching Python's `str` on a float, for example `str(1.0) = "1.0"`). -/
def decStrOfNat (num den : Nat) : List Char :=
  natChars (num / den) ++ '.' :: (if num % den = 0 then ['0'] else fracDigitsN 40 (num % den) den)

/-- `str(coef)`: the decimal string form of a matrix entry, modelling
Python's `str` on a float whose value has a terminating decimal expansion. -/
def decStr (q : ℚ) : List Char :=
  if q < 0 then '-' :: decStrOfNat (-q.num).toNat q.den else decStrOfNat q.num.toNat q.den

/-- The synthetic node names `x0, x1, ...` generated by
`[f'x{i}' for i in range(len(adjacency_matrix))]` when no labels are given. -/
def defaultNames (n : Nat) : List Str :=
  (List.range n).map (fun i => 'x' :: natChars i)

/-- The edge-building loop
`for to, from_, coef in zip(dirs[0], dirs[1], adjacency_matrix[idx]): d.edge(names[from_], names[to], label=str(coef))`.
Each element pairs a mask position `(to, from)` with the matrix entry there;
`names[from_]` and `names[to]` are Python list indexing and raise `IndexError`
(here: `none`) when out of range. -/
def buildEdges (names : List Str) : List ((Nat × Nat) × ℚ) → Option (List (Str × Str × Str))
  | [] => some []
  | pc :: rest =>
    match names.get? pc.1.2, names.get? pc.1.1, buildEdges names rest with
    | some s, some t, some es => some ((s, t, decStr pc.2) :: es)
    | _, _, _ => none

/-- `make_graph(adjacency_matrix, labels=None)` from the notebook: computes
the boolean threshold mask, its `np.where` positions, the node names (the
labels when the labels list is truthy, else the synthetic `x{i}` names), adds
one node per name, then adds one edge per mask position `(to, from)` from
`names[from]` to `names[to]` labelled with the decimal string of the entry.
An absent `labels` argument (`None`) and an empty labels list are both falsy
and are both modelled by `[]`.  Returns `none` when an index lookup raises. -/
def make_graph (adjacency_matrix : List (List ℚ)) (labels : List Str) : Option Digraph :=
  let idx := bool_mask adjacency_matrix
  let dirs := np_where idx
  let names := if labels ≠ [] then labels else defaultNames adjacency_matrix.length
  let coefs := mask_select adjacency_matrix idx
  (buildEdges names (dirs.zip coefs)).map (fun es => { nodes := names, edges := es })

/-- Proof-side characterization of one row of the threshold scan: the pairs
`((i, j), v)` for the entries `v` of the row (first entry at column `j`)
whose absolute value strictly exceeds the threshold. -/
def rowCells (i : Nat) : Nat → List ℚ → List ((Nat × Nat) × ℚ)
  | _, [] => []
  | j, v :: vs =>
    if threshold < ratAbs v then ((i, j), v) :: rowCells i (j + 1) vs else rowCells i (j + 1) vs

/-- Proof-side characterization of the whole threshold scan in row-major
order, first row at index `i`. -/
def matCells : Nat → List (List ℚ) → List ((Nat × Nat) × ℚ)
  | _, [] => []
  | i, row :: rows => rowCells i 0 row ++ matCells (i + 1) rows

/-- The node names `make_graph` uses: the labels when the list is truthy
(nonempty), else the synthetic names. -/
def namesOf (m : List (List ℚ)) (labels : List Str) : List Str :=
  if labels ≠ [] then labels else defaultNames m.length

/-- A matrix is square when every row is as long as the list of rows. -/
def IsSquare (m : List (List ℚ)) : Prop :=
  ∀ row ∈ m, row.length = m.length

instance (m : List (List ℚ)) : Decidable (IsSquare m) := by
  unfold IsSquare; infer_instance

/-- The number of matrix cells whose absolute value strictly exceeds the
threshold, as the spec counts them. -/
def over_threshold_count (m : List (List ℚ)) : Nat :=
  (m.map (fun row => row.countP (fun v => decide (threshold < ratAbs v)))).sum

/-- State-passing embedding of `np.abs(adjacency_matrix) > 0.01` for the
frame property: the matrix is the explicit array state; the operation reads
it, allocates the fresh boolean mask, and returns the state unchanged
(numpy's `abs` and `>` do not write to their operand). -/
def np_abs_gt_read (st : List (List ℚ)) : List (List Bool) × List (List ℚ) :=
  (bool_mask st, st)

/-- State-passing embedding of the boolean-mask read `adjacency_matrix[idx]`:
reads the array state, allocates the selected entries, returns the state
unchanged (fancy indexing does not write to its operand). -/
def mask_read (st : List (List ℚ)) (mask : List (List Bool)) : List ℚ × List (List ℚ) :=
  (mask_select st mask, st)

/-- State-passing embedding of `make_graph` for the frame property: the
adjacency matrix is threaded as explicit state through the primitive
operations of the source that touch it, in source order.  No step writes to
the array. -/
def make_graph_threaded (adjacency_matrix : List (List ℚ)) (labels : List Str) :
    Option Digraph × List (List ℚ) :=
  let p1 := np_abs_gt_read adjacency_matrix
  let dirs := np_where p1.1
  let names := if labels ≠ [] then labels else defaultNames p1.2.length
  let p2 := mask_read p1.2 p1.1
  ((buildEdges names (dirs.zip p2.1)).map (fun es => { nodes := names, edges := es }), p2.2)

/-- Python `str.strip()`: remove leading and trailing whitespace. -/
def pyStrip (s : Str) : Str :=
  ((s.dropWhile Char.isWhitespace).reverse.dropWhile Char.isWhitespace).reverse

/-- Python `str.replace(old, new)` for single-character `old` and `new`. -/
def replaceChar (old new : Char) (s : Str) : Str :=
  s.map (fun c => if c = old then new else c)

/-- Python `str.replace(old, '')` for a single-character `old`. -/
def removeChar (old : Char) (s : Str) : Str :=
  s.filter (fun c => c ≠ old)

/-- `str_to_dot(string)` from the notebook:
`graph = string.strip().replace('\n', ';').replace('\t', '')` followed by
`graph = graph[:9] + graph[10:-2] + graph[-1]`.  Python slices never raise,
but `graph[-1]` raises `IndexError` (here: `none`) when `graph` is empty;
`graph[:9]` is the first nine characters, `graph[10:-2]` the characters from
index 10 up to but excluding index `len - 2`. -/
def str_to_dot (string : Str) : Option Str :=
  let graph := removeChar '\t' (replaceChar '\n' ';' (pyStrip string))
  match graph.getLast? with
  | none => none
  | some last => some (graph.take 9 ++ ((graph.drop 10).dropLast.dropLast ++ [last]))

/-- The nine-character wrapper prefix `digraph` + space + opening brace of
the rendered graph text. -/
def dotHeader : Str := ("digraph \x7b").toList

/-- The separator of an edge statement: space, dash, greater-than, space. -/
def arrowSep : Str := [' ', '-', '>', ' ']

/-- The opening of the label attribute of an edge statement:
space, opening square bracket, the word label, equals sign. -/
def labelOpen : Str := [' ', '[', 'l', 'a', 'b', 'e', 'l', '=']

/-- The rendered text of one edge statement:
`source -> target [label=weight]`. -/
def edgeStmt (e : Str × Str × Str) : Str :=
  e.1 ++ arrowSep ++ e.2.1 ++ labelOpen ++ e.2.2 ++ [']']

/-- The statement list of a rendered graph: node statements (the bare node
name) in insertion order, then edge statements in insertion order. -/
def stmts (g : Digraph) : List Str :=
  g.nodes ++ g.edges.map edgeStmt

/-- Modelled from the spec: the `source` text of the rendered graph as the
external rendering engine (a collaborator, not part of this repository)
produces it for identifiers that need no quoting — a `digraph` block whose
body lists one statement per line, each line indented with a tab, edges
written `source -> target [label=weight]` (spec section 6). -/
def render (g : Digraph) : Str :=
  dotHeader ++ '\n' :: ((stmts g).map (fun s => '\t' :: (s ++ ['\n']))).flatten ++ ['\x7d']

/-- Split a string at the first occurrence of the (nonempty) pattern,
returning the part before and the part after it, or `none` when the pattern
does not occur. -/
def splitFirst (pat : Str) : Str → Option (Str × Str)
  | [] => none
  | c :: rest =>
    if pat.isPrefixOf (c :: rest) then some ([], (c :: rest).drop pat.length)
    else (splitFirst pat rest).map (fun p => (c :: p.1, p.2))

/-- A parsed statement: a node name, or an edge `(source, target, label)`. -/
abbrev Stmt := Str ⊕ (Str × Str × Str)

/-- Parse the remainder of an edge statement after the arrow separator:
the target, the label opening, the label, and the closing square bracket. -/
def parseEdgeRest (src rest : Str) : Option Stmt :=
  match splitFirst labelOpen rest with
  | none => none
  | some (tgt, rest2) =>
    match rest2.getLast? with
    | none => none
    | some c => if c = ']' then some (Sum.inr (src, tgt, rest2.dropLast)) else none

/-- Modelled from the spec: parse one statement of the directed-graph
description grammar — a statement containing the arrow separator is an edge
statement `source -> target [label=weight]`, any other statement is a node
declaration (spec sections 4 and 6). -/
def parseStmt (s : Str) : Option Stmt :=
  match splitFirst arrowSep s with
  | none => some (Sum.inl s)
  | some (src, rest) => parseEdgeRest src rest

/-- Parse a list of statements, failing when any single one fails. -/
def parseStmts : List Str → Option (List Stmt)
  | [] => some []
  | s :: rest =>
    match parseStmt s, parseStmts rest with
    | some p, some ps => some (p :: ps)
    | _, _ => none

/-- The node declaration carried by a parsed statement, if any. -/
def nodeSel : Stmt → Option Str
  | Sum.inl n => some n
  | Sum.inr _ => none

/-- The edge declaration carried by a parsed statement, if any. -/
def edgeSel : Stmt → Option (Str × Str × Str)
  | Sum.inl _ => none
  | Sum.inr e => some e

/-- Collect parsed statements into a graph: the node declarations in order,
and the edge declarations in order. -/
def stmtsToGraph (ps : List Stmt) : Digraph where
  nodes := ps.filterMap nodeSel
  edges := ps.filterMap edgeSel

/-- Modelled from the spec: parse a normalized directed-graph description —
a `digraph` block holding a semicolon-separated statement list of node and
edge declarations — back into its node set and edge set (spec sections 4
and 6). -/
def parseDot (s : Str) : Option Digraph :=
  if dotHeader.isPrefixOf s && (s.getLast? == some '\x7d') then
    if (s.drop 9).dropLast = [] then some { nodes := [], edges := [] }
    else
      match parseStmts (((s.drop 9).dropLast).splitOn ';') with
      | none => none
      | some ps => some (stmtsToGraph ps)
  else none

/-- Characters that keep an identifier intact through rendering and
normalization: not a space, not the statement separator, not a line break,
not a tab. -/
def goodChar (c : Char) : Prop :=
  c ≠ ' ' ∧ c ≠ ';' ∧ c ≠ '\n' ∧ c ≠ '\t'

instance (c : Char) : Decidable (goodChar c) := by
  unfold goodChar; infer_instance

/-- A node name that survives rendering and normalization verbatim:
nonempty and made of good characters only. -/
def goodName (n : Str) : Prop :=
  n ≠ [] ∧ ∀ c ∈ n, goodChar c

instance (n : Str) : Decidable (goodName n) := by
  unfold goodName; infer_instance

theorem ratAbs_eq_abs (q : ℚ) : ratAbs q = |q| := by
  unfold ratAbs
  split <;> rename_i h
  · exact (abs_of_neg h).symm
  · exact (abs_of_nonneg (not_lt.mp h)).symm

theorem threshold_eq : threshold = 1 / 100 := by
  unfold threshold
  rw [Rat.mkRat_eq_div]
  norm_num

theorem whereRow_length (i : Nat) (row : List ℚ) : ∀ j : Nat,
    (whereRow i j (row.map fun v => decide (threshold < ratAbs v))).length
      = (selectRow row (row.map fun v => decide (threshold < ratAbs v))).length := by
  induction row with
  | nil => intro j; rfl
  | cons v vs ih =>
    intro j
    by_cases h : threshold < ratAbs v <;>
      simp [whereRow, selectRow, h, ih]

theorem zip_whereRow_selectRow (i : Nat) (row : List ℚ) : ∀ j : Nat,
    (whereRow i j (row.map fun v => decide (threshold < ratAbs v))).zip
        (selectRow row (row.map fun v => decide (threshold < ratAbs v)))
      = rowCells i j row := by
  induction row with
  | nil => intro j; rfl
  | cons v vs ih =>
    intro j
    by_cases h : threshold < ratAbs v <;>
      simp [whereRow, selectRow, rowCells, h, ih]

/-- Fusing `np.where` on the boolean mask with boolean-mask indexing: zipping
the mask positions with the selected entries enumerates, in row-major order,
exactly the above-threshold cells paired with their values. -/
theorem zip_np_where_mask_select (m : List (List ℚ)) : ∀ k : Nat,
    (whereAux k (bool_mask m)).zip (mask_select m (bool_mask m)) = matCells k m := by
  induction m with
  | nil => intro k; rfl
  | cons row rows ih =>
    intro k
    have hlen := whereRow_length k row 0
    simp only [bool_mask, List.map_cons, whereAux, matCells, mask_select,
      List.zip_cons_cons, List.flatten_cons]
    rw [List.zip_append hlen]
    rw [zip_whereRow_selectRow]
    have := ih (k + 1)
    simp only [bool_mask, mask_select] at this
    rw [this]

theorem rowCells_bound (i : Nat) (row : List ℚ) : ∀ j : Nat, ∀ p ∈ rowCells i j row,
    p.1.1 = i ∧ p.1.2 < j + row.length := by
  induction row with
  | nil => intro j p hp; cases hp
  | cons v vs ih =>
    intro j p hp
    rw [rowCells] at hp
    by_cases h : threshold < ratAbs v
    · rw [if_pos h] at hp
      rcases List.mem_cons.mp hp with rfl | hp'
      · exact ⟨rfl, by simp⟩
      · obtain ⟨h1, h2⟩ := ih (j + 1) p hp'
        exact ⟨h1, by simp only [List.length_cons]; omega⟩
    · rw [if_neg h] at hp
      obtain ⟨h1, h2⟩ := ih (j + 1) p hp
      exact ⟨h1, by simp only [List.length_cons]; omega⟩

theorem matCells_bound (n : Nat) : ∀ (m : List (List ℚ)) (k : Nat),
    (∀ row ∈ m, row.length = n) →
    ∀ p ∈ matCells k m, p.1.1 < k + m.length ∧ p.1.2 < n := by
  intro m
  induction m with
  | nil => intro k _ p hp; cases hp
  | cons row rows ih =>
    intro k hsq p hp
    simp only [matCells, List.mem_append] at hp
    rcases hp with hp | hp
    · obtain ⟨hb1, hb2⟩ := rowCells_bound k row 0 p hp
      have hr : row.length = n := hsq row (by simp)
      constructor
      · simp only [List.length_cons]; omega
      · omega
    · obtain ⟨hb1, hb2⟩ := ih (k + 1) (fun r hr => hsq r (by simp [hr])) p hp
      constructor
      · simp only [List.length_cons]; omega
      · exact hb2

theorem buildEdges_eq_map (names : List Str) :
    ∀ cells : List ((Nat × Nat) × ℚ),
    (∀ p ∈ cells, p.1.1 < names.length ∧ p.1.2 < names.length) →
    buildEdges names cells
      = some (cells.map fun p => (names.getD p.1.2 [], names.getD p.1.1 [], decStr p.2)) := by
  intro cells
  induction cells with
  | nil => intro _; rfl
  | cons p rest ih =>
    intro h
    have hp := h p (by simp)
    have h2 : names.get? p.1.2 = some (names.getD p.1.2 []) := by
      rw [List.get?_eq_get hp.2, List.getD_eq_getElem _ _ hp.2]
      simp
    have h1 : names.get? p.1.1 = some (names.getD p.1.1 []) := by
      rw [List.get?_eq_get hp.1, List.getD_eq_getElem _ _ hp.1]
      simp
    have hr := ih (fun q hq => h q (by simp [hq]))
    simp only [buildEdges, h1, h2, hr, List.map_cons]

theorem defaultNames_length (n : Nat) : (defaultNames n).length = n := by
  simp [defaultNames]

theorem namesOf_length (m : List (List ℚ)) (L : List Str)
    (hL : L = [] ∨ L.length = m.length) : (namesOf m L).length = m.length := by
  rcases hL with rfl | h
  · simp [namesOf, defaultNames_length]
  · by_cases hne : L = []
    · subst hne; simp [namesOf, defaultNames_length]
    · simp [namesOf, hne, h]

/-- Unfolding of `make_graph` on well-formed input: with a square matrix and
a label list that is empty (absent) or of matching length, the call succeeds
and yields the names as nodes, and one edge per above-threshold cell
`((to, from), v)` in row-major order, from `names[from]` to `names[to]`,
labelled with the decimal string of `v`. -/
theorem make_graph_eq (M : List (List ℚ)) (L : List Str)
    (hsq : IsSquare M) (hL : L = [] ∨ L.length = M.length) :
    make_graph M L
      = some ⟨namesOf M L,
          (matCells 0 M).map fun p =>
            ((namesOf M L).getD p.1.2 [], (namesOf M L).getD p.1.1 [], decStr p.2)⟩ := by
  have hlen : (namesOf M L).length = M.length := namesOf_length M L hL
  have hzip := zip_np_where_mask_select M 0
  have hbound : ∀ p ∈ matCells 0 M,
      p.1.1 < (namesOf M L).length ∧ p.1.2 < (namesOf M L).length := by
    intro p hp
    have := matCells_bound M.length M 0 hsq p hp
    rw [hlen]
    exact ⟨by omega, this.2⟩
  have hbuild := buildEdges_eq_map (namesOf M L) (matCells 0 M) hbound
  simp only [make_graph, np_where, namesOf] at *
  rw [hzip, hbuild]
  rfl

theorem rowCells_length (i : Nat) (row : List ℚ) : ∀ j : Nat,
    (rowCells i j row).length = row.countP (fun v => decide (threshold < ratAbs v)) := by
  induction row with
  | nil => intro j; rfl
  | cons v vs ih =>
    intro j
    by_cases h : threshold < ratAbs v <;>
      simp [rowCells, List.countP_cons, h, ih]

theorem matCells_length (m : List (List ℚ)) : ∀ k : Nat,
    (matCells k m).length = over_threshold_count m := by
  induction m with
  | nil => intro k; rfl
  | cons row rows ih =>
    intro k
    simp [matCells, over_threshold_count, rowCells_length, ih k, ih (k + 1)]

/-- C1: for a square matrix and a matching label list, `make_graph` declares,
for each above-threshold cell at `(row = to, col = from)` in row-major order,
exactly one directed edge from `names[from]` to `names[to]` labelled with the
decimal string of the cell value. -/
theorem make_graph_edges_spec (M : List (List ℚ)) (L : List Str)
    (hsq : IsSquare M) (hlen : L.length = M.length) (hne : L ≠ []) :
    make_graph M L
      = some ⟨L, (matCells 0 M).map fun p => (L.getD p.1.2 [], L.getD p.1.1 [], decStr p.2)⟩ := by
  have h := make_graph_eq M L hsq (Or.inr hlen)
  simpa [namesOf, hne] using h

/-- Witness for C1, the spec's scenario: `M = [[0, 0.5], [0.6, 0]]` with
labels `A`, `B` gives nodes `A`, `B` and, in row-major mask order, the edge
`B -> A` labelled `0.5` (from cell `(0, 1)`) then `A -> B` labelled `0.6`
(from cell `(1, 0)`). -/
theorem make_graph_edges_spec_witness :
    make_graph [[0, mkRat 1 2], [mkRat 3 5, 0]] [['A'], ['B']]
      = some ⟨[['A'], ['B']],
          [(['B'], ['A'], ['0', '.', '5']), (['A'], ['B'], ['0', '.', '6'])]⟩ := by
  have h := make_graph_edges_spec [[0, mkRat 1 2], [mkRat 3 5, 0]] [['A'], ['B']]
    (by decide) (by decide) (by decide)
  rw [h]
  decide

/-- C4: on a square matrix with matching (or absent) labels, the number of
edges equals the number of cells whose absolute value strictly exceeds
`0.01`; the comparison is strict, so a cell of absolute value exactly `0.01`
contributes nothing. -/
theorem make_graph_edge_count (M : List (List ℚ)) (L : List Str)
    (hsq : IsSquare M) (hL : L = [] ∨ L.length = M.length) :
    ∃ g, make_graph M L = some g ∧ g.edges.length = over_threshold_count M := by
  refine ⟨_, make_graph_eq M L hsq hL, ?_⟩
  simp [List.length_map, matCells_length]

/-- Witness for C4 at the boundary: the matrix
`[[0.01, 0.02], [0, 0.01]]` has exactly one cell above the threshold — the
two cells of absolute value exactly `0.01` are excluded by the strict
comparison — and the built graph has exactly one edge. -/
theorem make_graph_edge_count_witness :
    (∃ g, make_graph [[mkRat 1 100, mkRat 2 100], [0, mkRat 1 100]] [] = some g ∧
        g.edges.length = over_threshold_count [[mkRat 1 100, mkRat 2 100], [0, mkRat 1 100]]) ∧
      over_threshold_count [[mkRat 1 100, mkRat 2 100], [0, mkRat 1 100]] = 1 :=
  ⟨make_graph_edge_count [[mkRat 1 100, mkRat 2 100], [0, mkRat 1 100]] [] (by decide) (Or.inl rfl), by decide⟩

/-- C5: on a square matrix of dimension `N`, `make_graph` declares exactly
`N` nodes — the provided labels verbatim in index order when a (nonempty)
label list of size `N` is given, and the synthetic names `x0, ..., x(N-1)`
when labels are absent. -/
theorem make_graph_nodes_spec :
    (∀ (M : List (List ℚ)) (L : List Str), IsSquare M → L.length = M.length → L ≠ [] →
        ∃ g, make_graph M L = some g ∧ g.nodes = L ∧ g.nodes.length = M.length) ∧
      (∀ M : List (List ℚ), IsSquare M →
        ∃ g, make_graph M [] = some g ∧ g.nodes = defaultNames M.length ∧
          g.nodes.length = M.length) := by
  constructor
  · intro M L hsq hlen hne
    exact ⟨_, make_graph_edges_spec M L hsq hlen hne, rfl, hlen⟩
  · intro M hsq
    have h := make_graph_eq M [] hsq (Or.inl rfl)
    refine ⟨_, h, ?_, ?_⟩
    · simp [namesOf]
    · simp [namesOf, defaultNames_length]

/-- Witness for C5: a 2-by-2 zero matrix with labels `A`, `B` yields exactly
the nodes `A`, `B` in order; without labels it yields `x0`, `x1`. -/
theorem make_graph_nodes_spec_witness :
    (∃ g, make_graph [[0, 0], [0, 0]] [['A'], ['B']] = some g ∧
        g.nodes = [['A'], ['B']] ∧ g.nodes.length = 2) ∧
      (∃ g, make_graph [[0, 0], [0, 0]] [] = some g ∧
        g.nodes = [['x', '0'], ['x', '1']] ∧ g.nodes.length = 2) := by
  constructor
  · have h := make_graph_nodes_spec.1 [[0, 0], [0, 0]] [['A'], ['B']]
      (by decide) (by decide) (by decide)
    simpa using h
  · have h := make_graph_nodes_spec.2 [[0, 0], [0, 0]] (by decide)
    obtain ⟨g, h1, h2, h3⟩ := h
    exact ⟨g, h1, by rw [h2]; decide, by simpa using h3⟩

/-- C10: an empty labels list is falsy in Python, so
`labels if labels else [f'x{i}' ...]` treats it exactly like an absent
argument: on a square matrix of positive dimension the call does not fail,
ignores the empty list, and uses the synthetic names `x0, ..., x(N-1)`. -/
theorem make_graph_empty_labels (M : List (List ℚ))
    (hsq : IsSquare M) (hpos : 0 < M.length) :
    ∃ g, make_graph M [] = some g ∧ g.nodes = defaultNames M.length ∧ g.nodes ≠ [] := by
  have h := make_graph_eq M [] hsq (Or.inl rfl)
  refine ⟨_, h, by simp [namesOf], ?_⟩
  have : (defaultNames M.length).length = M.length := defaultNames_length M.length
  simp only [namesOf]
  intro hcon
  rw [if_neg (by simp)] at hcon
  rw [hcon] at this
  simp at this
  omega

/-- Witness for C10: the 1-by-1 matrix `[[0.5]]` with an explicitly empty
labels list succeeds and names its single node `x0`. -/
theorem make_graph_empty_labels_witness :
    ∃ g, make_graph [[mkRat 1 2]] [] = some g ∧
      g.nodes = defaultNames 1 ∧ g.nodes ≠ [] :=
  make_graph_empty_labels [[mkRat 1 2]] (by decide) (by decide)

theorem buildEdges_none_iff (names : List Str) : ∀ cells : List ((Nat × Nat) × ℚ),
    (buildEdges names cells = none ↔
      ∃ p ∈ cells, names.length ≤ p.1.1 ∨ names.length ≤ p.1.2) := by
  intro cells
  induction cells with
  | nil => simp [buildEdges]
  | cons p rest ih =>
    constructor
    · intro h
      rw [buildEdges] at h
      cases h2 : names.get? p.1.2 with
      | none =>
        exact ⟨p, by simp, Or.inr (List.get?_eq_none.mp h2)⟩
      | some s =>
        cases h1 : names.get? p.1.1 with
        | none =>
          exact ⟨p, by simp, Or.inl (List.get?_eq_none.mp h1)⟩
        | some t =>
          cases hr : buildEdges names rest with
          | none =>
            obtain ⟨q, hq, hle⟩ := ih.mp hr
            exact ⟨q, by simp [hq], hle⟩
          | some es => rw [h2, h1, hr] at h; cases h
    · rintro ⟨q, hq, hle⟩
      rcases List.mem_cons.mp hq with rfl | hq'
      · rw [buildEdges]
        rcases hle with hle | hle
        · rw [List.get?_eq_none.mpr hle]
          cases names.get? q.1.2 <;> rfl
        · rw [List.get?_eq_none.mpr hle]
      · have : buildEdges names rest = none := ih.mpr ⟨q, hq', hle⟩
        rw [buildEdges, this]
        cases names.get? p.1.2 <;> cases names.get? p.1.1 <;> rfl

/-- Counterexample to C2: `make_graph` raises no dimension errors.  A labels
list of length 2 with a 1-by-1 matrix succeeds (declaring both label nodes),
and a non-square 3-by-2 matrix succeeds as well. -/
theorem make_graph_no_dimension_errors :
    make_graph [[0]] [['A'], ['B']] = some ⟨[['A'], ['B']], []⟩ ∧
      make_graph [[0, 0], [0, 0], [0, 0]] []
        = some ⟨[['x', '0'], ['x', '1'], ['x', '2']], []⟩ := by
  constructor <;> rfl

/-- C2 amended: `make_graph` performs no input validation at all.  It fails
(with a Python `IndexError`, modelled as `none`) exactly when some
above-threshold cell's row or column index falls outside the names list;
dedicated `DimensionMismatch` or `NonSquareMatrix` failures do not exist. -/
theorem make_graph_none_iff (M : List (List ℚ)) (L : List Str) :
    make_graph M L = none ↔
      ∃ p ∈ matCells 0 M,
        (namesOf M L).length ≤ p.1.1 ∨ (namesOf M L).length ≤ p.1.2 := by
  have hzip := zip_np_where_mask_select M 0
  simp only [make_graph, np_where, namesOf] at *
  rw [hzip, Option.map_eq_none']
  exact buildEdges_none_iff _ (matCells 0 M)

/-- Witness for the amended C2: labels `["A"]` with the matrix
`[[0, 1], [0, 0]]` fail, because the above-threshold cell `(0, 1)` asks for
`names[1]` which does not exist. -/
theorem make_graph_none_iff_witness :
    make_graph [[0, 1], [0, 0]] [['A']] = none :=
  (make_graph_none_iff [[0, 1], [0, 0]] [['A']]).mpr (by decide)

/-- C9: `make_graph` never mutates its input matrix.  In the state-passing
embedding that threads the adjacency matrix through every primitive
operation of the source that touches it, the final array state equals the
input, and the computed result is exactly that of `make_graph`. -/
theorem make_graph_frame (M : List (List ℚ)) (L : List Str) :
    (make_graph_threaded M L).2 = M ∧ (make_graph_threaded M L).1 = make_graph M L :=
  ⟨rfl, rfl⟩

theorem dropWhile_head_not (p : Char → Bool) (l : List Char) (x : Char) (xs : List Char)
    (h : l.dropWhile p = x :: xs) : p x = false := by
  induction l with
  | nil => cases h
  | cons a as ih =>
    rw [List.dropWhile_cons] at h
    split at h
    · exact ih h
    · rename_i hpa
      cases h
      simpa using hpa

theorem pyStrip_eq_nil_iff (s : Str) :
    pyStrip s = [] ↔ ∀ c ∈ s, c.isWhitespace := by
  unfold pyStrip
  rw [List.reverse_eq_nil_iff, List.dropWhile_eq_nil_iff]
  constructor
  · intro h c hc
    have hsplit := List.takeWhile_append_dropWhile Char.isWhitespace s
    rw [← hsplit] at hc
    rcases List.mem_append.mp hc with h1 | h2
    · exact List.mem_takeWhile_imp h1
    · exact h c (List.mem_reverse.mpr h2)
  · intro h c hc
    exact h c ((List.dropWhile_sublist Char.isWhitespace).subset (List.mem_reverse.mp hc))

theorem processed_eq_nil_iff (s : Str) :
    removeChar '\t' (replaceChar '\n' ';' (pyStrip s)) = [] ↔ pyStrip s = [] := by
  constructor
  · intro h
    by_contra hne
    have hpd : pyStrip s
        = ((s.dropWhile Char.isWhitespace).reverse.dropWhile Char.isWhitespace).reverse := rfl
    have hDne : (s.dropWhile Char.isWhitespace).reverse.dropWhile Char.isWhitespace ≠ [] := by
      intro hcon
      apply hne
      rw [hpd, hcon]
      rfl
    obtain ⟨x, xs, hx⟩ :
        ∃ x xs, (s.dropWhile Char.isWhitespace).reverse.dropWhile Char.isWhitespace
          = x :: xs := by
      cases hd : (s.dropWhile Char.isWhitespace).reverse.dropWhile Char.isWhitespace with
      | nil => exact absurd hd hDne
      | cons a as => exact ⟨a, as, rfl⟩
    have hxmem : x ∈ pyStrip s := by
      rw [hpd, hx]
      simp
    have hxnw : x.isWhitespace = false := dropWhile_head_not Char.isWhitespace _ x xs hx
    have hxn : x ≠ '\n' := by
      intro hcon; rw [hcon] at hxnw; simp [Char.isWhitespace] at hxnw
    have hxt : x ≠ '\t' := by
      intro hcon; rw [hcon] at hxnw; simp [Char.isWhitespace] at hxnw
    have hmem2 : x ∈ replaceChar '\n' ';' (pyStrip s) := by
      have := List.mem_map_of_mem (fun c => if c = '\n' then ';' else c) hxmem
      simpa [replaceChar, hxn] using this
    have hmem3 : x ∈ removeChar '\t' (replaceChar '\n' ';' (pyStrip s)) := by
      simp only [removeChar, List.mem_filter]
      exact ⟨hmem2, by simpa using hxt⟩
    rw [h] at hmem3
    cases hmem3
  · intro h
    rw [h]
    rfl

/-- C3 amended: `str_to_dot` fails exactly when its input is empty or
entirely whitespace — then the processed string is empty and the final
single-character access raises — and returns normally on every other input,
however short. -/
theorem str_to_dot_none_iff (s : Str) :
    str_to_dot s = none ↔ ∀ c ∈ s, c.isWhitespace := by
  rw [← pyStrip_eq_nil_iff, ← processed_eq_nil_iff]
  unfold str_to_dot
  cases hg : (removeChar '\t' (replaceChar '\n' ';' (pyStrip s))).getLast? with
  | none =>
    simp only [hg]
    simpa using List.getLast?_eq_none_iff.mp hg
  | some c =>
    simp only [hg]
    constructor
    · intro hcon; cases hcon
    · intro hnil
      rw [hnil] at hg
      cases hg

/-- Counterexample to C3: the two-character input `ab` is far shorter than
the fixed widths the slicing step addresses (indices up to 10 and the last
two characters), yet `str_to_dot` does not fail: Python slices out of range
are simply empty, and the call returns `abb`. -/
theorem str_to_dot_short_input_no_failure :
    str_to_dot ['a', 'b'] = some ['a', 'b', 'b'] ∧ List.length ['a', 'b'] < 10 := by
  constructor
  · rfl
  · decide

theorem digitChar_good (d : Nat) (h : d < 10) : goodChar (Nat.digitChar d) := by
  interval_cases d <;> decide

theorem fracDigitsN_good : ∀ (fuel num den : Nat), 0 < den → num < den →
    ∀ c ∈ fracDigitsN fuel num den, goodChar c := by
  intro fuel
  induction fuel with
  | zero => intro num den _ _ c hc; cases hc
  | succ f ih =>
    intro num den hden hnum c hc
    rw [fracDigitsN] at hc
    by_cases h0 : num = 0
    · rw [if_pos h0] at hc; cases hc
    · rw [if_neg h0] at hc
      rcases List.mem_cons.mp hc with rfl | hc'
      · refine digitChar_good _ ?_
        rw [Nat.div_lt_iff_lt_mul hden]
        omega
      · exact ih (num * 10 % den) den hden (Nat.mod_lt _ hden) c hc'

theorem natCharsAux_good : ∀ fuel n : Nat, ∀ c ∈ natCharsAux fuel n, goodChar c := by
  intro fuel
  induction fuel with
  | zero => intro n c hc; cases hc
  | succ f ih =>
    intro n c hc
    rw [natCharsAux] at hc
    by_cases h : n < 10
    · rw [if_pos h] at hc
      rcases List.mem_cons.mp hc with rfl | hc'
      · exact digitChar_good n h
      · cases hc'
    · rw [if_neg h] at hc
      rcases List.mem_append.mp hc with hc' | hc'
      · exact ih (n / 10) c hc'
      · rcases List.mem_cons.mp hc' with rfl | hc''
        · exact digitChar_good _ (Nat.mod_lt _ (by omega))
        · cases hc''

theorem natChars_good (n : Nat) : ∀ c ∈ natChars n, goodChar c :=
  natCharsAux_good (n + 1) n

theorem decStrOfNat_good (num den : Nat) (hden : 0 < den) :
    ∀ c ∈ decStrOfNat num den, goodChar c := by
  intro c hc
  unfold decStrOfNat at hc
  rcases List.mem_append.mp hc with hc' | hc'
  · exact natChars_good _ c hc'
  · rcases List.mem_cons.mp hc' with rfl | hc''
    · decide
    · split at hc''
      · rcases List.mem_singleton.mp hc'' with rfl
        decide
      · exact fracDigitsN_good 40 _ den hden (Nat.mod_lt _ hden) c hc''

theorem decStr_good (q : ℚ) : ∀ c ∈ decStr q, goodChar c := by
  intro c hc
  unfold decStr at hc
  have hden : 0 < q.den := q.pos
  split at hc
  · rcases List.mem_cons.mp hc with rfl | hc'
    · decide
    · exact decStrOfNat_good _ _ hden c hc'
  · exact decStrOfNat_good _ _ hden c hc

theorem replaceChar_append (o n : Char) (a b : Str) :
    replaceChar o n (a ++ b) = replaceChar o n a ++ replaceChar o n b :=
  List.map_append _ a b

theorem removeChar_append (o : Char) (a b : Str) :
    removeChar o (a ++ b) = removeChar o a ++ removeChar o b := by
  unfold removeChar
  rw [List.filter_append]

theorem replaceChar_eq_self (o n : Char) (s : Str) (h : ∀ c ∈ s, c ≠ o) :
    replaceChar o n s = s := by
  induction s with
  | nil => rfl
  | cons a as ih =>
    have ha := h a (by simp)
    have hrest := ih (fun c hc => h c (by simp [hc]))
    simp only [replaceChar, List.map_cons, if_neg ha] at *
    rw [hrest]

theorem removeChar_eq_self (o : Char) (s : Str) (h : ∀ c ∈ s, c ≠ o) :
    removeChar o s = s := by
  unfold removeChar
  rw [List.filter_eq_self]
  intro a ha
  simpa using h a ha

theorem pyStrip_firm_ends (a b : Char) (mid : Str)
    (ha : a.isWhitespace = false) (hb : b.isWhitespace = false) :
    pyStrip (a :: (mid ++ [b])) = a :: (mid ++ [b]) := by
  unfold pyStrip
  rw [List.dropWhile_cons, if_neg (by simp [ha])]
  rw [show (a :: (mid ++ [b])).reverse = b :: (mid.reverse ++ [a]) by simp]
  rw [List.dropWhile_cons, if_neg (by simp [hb])]
  simp

/-- Normalization of the rendered text: stripping is the identity (the text
starts with a letter and ends with the closing brace), every statement's
trailing line break becomes a semicolon — including the one after the
opening brace — and the indentation tabs disappear. -/
theorem normalize_render (g : Digraph)
    (hstmt : ∀ s ∈ stmts g, ∀ c ∈ s, c ≠ '\n' ∧ c ≠ '\t') :
    removeChar '\t' (replaceChar '\n' ';' (pyStrip (render g)))
      = dotHeader ++ [';'] ++ ((stmts g).map (fun s => s ++ [';'])).flatten ++ ['\x7d'] := by
  have hshape : render g
      = 'd' :: ((("igraph \x7b").toList
            ++ '\n' :: ((stmts g).map (fun s => '\t' :: (s ++ ['\n']))).flatten) ++ ['\x7d']) :=
    rfl
  rw [hshape, pyStrip_firm_ends 'd' '\x7d' _ (by decide) (by decide), ← hshape]
  have hr : render g
      = dotHeader ++ ['\n'] ++ ((stmts g).map (fun s => '\t' :: (s ++ ['\n']))).flatten
          ++ ['\x7d'] := rfl
  rw [hr]
  rw [replaceChar_append, replaceChar_append, replaceChar_append]
  rw [removeChar_append, removeChar_append, removeChar_append]
  have hhd1 : replaceChar '\n' ';' dotHeader = dotHeader := by decide
  have hhd2 : removeChar '\t' dotHeader = dotHeader := by decide
  have hnl : removeChar '\t' (replaceChar '\n' ';' ['\n']) = [';'] := by decide
  have hbr : removeChar '\t' (replaceChar '\n' ';' ['\x7d']) = ['\x7d'] := by decide
  rw [hhd1, hhd2, hnl, hbr]
  congr 2
  rw [show replaceChar '\n' ';' = List.map (fun c => if c = '\n' then ';' else c) from rfl]
  rw [List.map_flatten, List.map_map]
  rw [show removeChar '\t' = List.filter (fun c => decide (c ≠ '\t')) from rfl]
  rw [List.filter_flatten, List.map_map]
  congr 1
  apply List.map_congr_left
  intro s hs
  have hg := hstmt s hs
  have h1 : (List.map (fun c => if c = '\n' then ';' else c) ∘ fun s => '\t' :: (s ++ ['\n']))
        s
      = '\t' :: (s ++ [';']) := by
    simp only [Function.comp]
    rw [List.map_cons, if_neg (by decide), List.map_append]
    rw [show List.map (fun c => if c = '\n' then ';' else c) s = replaceChar '\n' ';' s from
      rfl]
    rw [replaceChar_eq_self _ _ s (fun c hc => (hg c hc).1)]
    rfl
  rw [show ((List.filter fun c => decide (c ≠ '\t')) ∘
        (List.map (fun c => if c = '\n' then ';' else c) ∘ fun s => '\t' :: (s ++ ['\n']))) s
      = List.filter (fun c => decide (c ≠ '\t'))
          ((List.map (fun c => if c = '\n' then ';' else c) ∘ fun s => '\t' :: (s ++ ['\n']))
            s) from rfl]
  rw [h1]
  rw [List.filter_cons]
  rw [if_neg (by decide)]
  rw [show List.filter (fun c => decide (c ≠ '\t')) (s ++ [';'])
      = removeChar '\t' (s ++ [';']) from rfl]
  rw [removeChar_append]
  rw [removeChar_eq_self _ s (fun c hc => (hg c hc).2)]
  rfl

theorem intercalate_single (c : Char) (a : Str) : List.intercalate [c] [a] = a := by
  simp [List.intercalate]

theorem intercalate_cons2 (c : Char) (a b : Str) (t : List Str) :
    List.intercalate [c] (a :: b :: t) = a ++ [c] ++ List.intercalate [c] (b :: t) := by
  simp [List.intercalate, List.intersperse]

theorem flatten_map_concat (c : Char) : ∀ ss : List Str, ss ≠ [] →
    (ss.map (fun s => s ++ [c])).flatten = List.intercalate [c] ss ++ [c] := by
  intro ss
  induction ss with
  | nil => intro h; exact absurd rfl h
  | cons a t ih =>
    intro _
    cases t with
    | nil => simp [intercalate_single]
    | cons b t2 =>
      have hrec := ih (by simp)
      simp only [List.map_cons, List.flatten_cons] at *
      rw [hrec, intercalate_cons2]
      simp

/-- The action of `str_to_dot` on the rendered text of a graph whose
statements contain no line break and no tab: the nine-character header
`digraph` + space + opening brace survives, the statements end up separated
by semicolons, and the closing brace ends the result.  The two characters
the slicing removes are exactly the separator after the opening brace and
the separator before the closing brace. -/
theorem str_to_dot_render (g : Digraph)
    (hstmt : ∀ s ∈ stmts g, ∀ c ∈ s, c ≠ '\n' ∧ c ≠ '\t') :
    str_to_dot (render g)
      = some (dotHeader ++ List.intercalate [';'] (stmts g) ++ ['\x7d']) := by
  have hnorm := normalize_render g hstmt
  show (match (removeChar '\t' (replaceChar '\n' ';' (pyStrip (render g)))).getLast? with
    | none => none
    | some last =>
      some ((removeChar '\t' (replaceChar '\n' ';' (pyStrip (render g)))).take 9 ++
        (((removeChar '\t' (replaceChar '\n' ';' (pyStrip (render g)))).drop
            10).dropLast.dropLast ++ [last]))) = _
  rw [hnorm]
  cases hs : stmts g with
  | nil => rfl
  | cons a t =>
    rw [flatten_map_concat ';' (a :: t) (by simp)]
    have hlast :
        (dotHeader ++ [';'] ++ (List.intercalate [';'] (a :: t) ++ [';']) ++
            ['\x7d']).getLast?
          = some '\x7d' := by
      simp
      rw [show ';' :: (List.intercalate [';'] (a :: t) ++ [';', '\x7d'])
          = (';' :: List.intercalate [';'] (a :: t)) ++ [';', '\x7d'] from rfl]
      rw [List.getLast?_append_cons]
      rfl
    have htake :
        (dotHeader ++ [';'] ++ (List.intercalate [';'] (a :: t) ++ [';']) ++ ['\x7d']).take 9
          = dotHeader := by
      rw [List.append_assoc dotHeader, List.append_assoc dotHeader]
      rw [show (9 : Nat) = dotHeader.length from rfl]
      simp
    have hdrop :
        (dotHeader ++ [';'] ++ (List.intercalate [';'] (a :: t) ++ [';']) ++ ['\x7d']).drop 10
          = (List.intercalate [';'] (a :: t) ++ [';']) ++ ['\x7d'] := by
      rw [List.append_assoc (dotHeader ++ [';'])]
      rw [show (10 : Nat) = (dotHeader ++ [';']).length from rfl]
      simp
    rw [hlast, htake, hdrop]
    have hdl : (((List.intercalate [';'] (a :: t) ++ [';']) ++
        ['\x7d']).dropLast).dropLast = List.intercalate [';'] (a :: t) := by
      simp
    rw [hdl]
    simp [List.append_assoc]

theorem isPrefixOf_cons_false (p c : Char) (pt l : Str) (h : c ≠ p) :
    ((p :: pt).isPrefixOf (c :: l)) = false := by
  have : ¬ (p :: pt) <+: (c :: l) := by
    intro hcon
    obtain ⟨tail, htail⟩ := hcon
    rw [List.cons_append] at htail
    cases htail
    exact h rfl
  rw [← List.isPrefixOf_iff_prefix] at this
  cases hb : (p :: pt).isPrefixOf (c :: l) with
  | false => rfl
  | true => exact absurd hb this

theorem splitFirst_of_not_mem (p : Char) (pt : Str) : ∀ s : Str,
    (∀ c ∈ s, c ≠ p) → splitFirst (p :: pt) s = none := by
  intro s
  induction s with
  | nil => intro _; rfl
  | cons c cs ih =>
    intro h
    have hc : c ≠ p := h c (by simp)
    rw [splitFirst]
    rw [if_neg (by simp [isPrefixOf_cons_false p c pt cs hc])]
    rw [ih (fun c' hc' => h c' (by simp [hc']))]
    rfl

theorem splitFirst_append (p : Char) (pt r : Str) : ∀ src : Str,
    (∀ c ∈ src, c ≠ p) → splitFirst (p :: pt) (src ++ (p :: pt) ++ r) = some (src, r) := by
  intro src
  induction src with
  | nil =>
    intro _
    rw [List.nil_append, List.cons_append, splitFirst]
    rw [if_pos (by
      rw [show p :: (pt ++ r) = (p :: pt) ++ r from rfl]
      rw [List.isPrefixOf_iff_prefix]
      exact List.prefix_append (p :: pt) r)]
    rw [show p :: (pt ++ r) = (p :: pt) ++ r from rfl]
    simp
  | cons c cs ih =>
    intro h
    have hc : c ≠ p := h c (by simp)
    rw [List.cons_append, List.cons_append, splitFirst]
    rw [if_neg (by simp [isPrefixOf_cons_false p c pt _ hc])]
    rw [show cs ++ (p :: pt) ++ r = cs ++ ((p :: pt) ++ r) from by simp] at ih ⊢
    rw [ih (fun c' hc' => h c' (by simp [hc']))]
    rfl

theorem parseStmt_node (n : Str) (h : ∀ c ∈ n, c ≠ ' ') :
    parseStmt n = some (Sum.inl n) := by
  unfold parseStmt
  rw [show arrowSep = ' ' :: ['-', '>', ' '] from rfl]
  rw [splitFirst_of_not_mem ' ' _ n h]

theorem parseEdgeRest_eq (src tgt lbl : Str) (htgt : ∀ c ∈ tgt, c ≠ ' ') :
    parseEdgeRest src (tgt ++ labelOpen ++ (lbl ++ [']'])) = some (Sum.inr (src, tgt, lbl)) := by
  unfold parseEdgeRest
  rw [show labelOpen = ' ' :: ['[', 'l', 'a', 'b', 'e', 'l', '='] from rfl]
  rw [splitFirst_append ' ' ['[', 'l', 'a', 'b', 'e', 'l', '='] (lbl ++ [']']) tgt htgt]
  show (match (lbl ++ [']']).getLast? with
    | none => none
    | some c =>
      if c = ']' then some (Sum.inr (src, tgt, (lbl ++ [']']).dropLast)) else none)
      = some (Sum.inr (src, tgt, lbl))
  rw [show (lbl ++ [']']).getLast? = some ']' from by simp]
  show (if ']' = ']' then some (Sum.inr (src, tgt, (lbl ++ [']']).dropLast)) else none)
    = some (Sum.inr (src, tgt, lbl))
  rw [if_pos rfl]
  rw [show (lbl ++ [']']).dropLast = lbl from by simp]

theorem parseStmt_edge (src tgt lbl : Str)
    (hsrc : ∀ c ∈ src, c ≠ ' ') (htgt : ∀ c ∈ tgt, c ≠ ' ') :
    parseStmt (edgeStmt (src, tgt, lbl)) = some (Sum.inr (src, tgt, lbl)) := by
  unfold parseStmt edgeStmt
  rw [show arrowSep = ' ' :: ['-', '>', ' '] from rfl]
  rw [show src ++ ' ' :: ['-', '>', ' '] ++ tgt ++ labelOpen ++ lbl ++ [']']
      = src ++ ' ' :: ['-', '>', ' '] ++ (tgt ++ labelOpen ++ (lbl ++ [']'])) from by
    simp [List.append_assoc]]
  rw [splitFirst_append ' ' ['-', '>', ' '] (tgt ++ labelOpen ++ (lbl ++ [']'])) src hsrc]
  show parseEdgeRest src (tgt ++ labelOpen ++ (lbl ++ [']'])) = some (Sum.inr (src, tgt, lbl))
  exact parseEdgeRest_eq src tgt lbl htgt

theorem parseStmts_append (b : List Str) (rb : List Stmt) (hb : parseStmts b = some rb) :
    ∀ (a : List Str) (ra : List Stmt), parseStmts a = some ra →
    parseStmts (a ++ b) = some (ra ++ rb) := by
  intro a
  induction a with
  | nil =>
    intro ra ha
    rw [parseStmts] at ha
    obtain rfl := Option.some.inj ha
    simpa using hb
  | cons s t ih =>
    intro ra ha
    rw [parseStmts] at ha
    rw [List.cons_append, parseStmts]
    cases hps : parseStmt s with
    | none => rw [hps] at ha; cases ha
    | some p =>
      cases hpt : parseStmts t with
      | none => rw [hps, hpt] at ha; cases ha
      | some ps =>
        rw [hps, hpt] at ha
        obtain rfl := Option.some.inj ha
        rw [ih ps hpt]
        rfl

theorem parseStmts_nodes (ns : List Str) (h : ∀ n ∈ ns, ∀ c ∈ n, c ≠ ' ') :
    parseStmts ns = some (ns.map Sum.inl) := by
  induction ns with
  | nil => rfl
  | cons n t ih =>
    rw [parseStmts, parseStmt_node n (h n (by simp)),
      ih (fun n' hn' => h n' (by simp [hn']))]
    rfl

theorem parseStmts_edges (es : List (Str × Str × Str))
    (h : ∀ e ∈ es, (∀ c ∈ e.1, c ≠ ' ') ∧ (∀ c ∈ e.2.1, c ≠ ' ')) :
    parseStmts (es.map edgeStmt) = some (es.map Sum.inr) := by
  induction es with
  | nil => rfl
  | cons e t ih =>
    obtain ⟨src, tgt, lbl⟩ := e
    have he := h (src, tgt, lbl) (by simp)
    rw [List.map_cons, parseStmts, parseStmt_edge src tgt lbl he.1 he.2,
      ih (fun e' he' => h e' (by simp [he']))]
    rfl

theorem filterMap_nodeSel_inl (ns : List Str) :
    (ns.map Sum.inl).filterMap nodeSel = ns := by
  induction ns with
  | nil => rfl
  | cons n t ih => simp [List.filterMap_cons, nodeSel, ih]

theorem filterMap_nodeSel_inr (es : List (Str × Str × Str)) :
    (es.map Sum.inr).filterMap nodeSel = ([] : List Str) := by
  induction es with
  | nil => rfl
  | cons e t ih => simp [List.filterMap_cons, nodeSel, ih]

theorem filterMap_edgeSel_inl (ns : List Str) :
    (ns.map Sum.inl).filterMap edgeSel = ([] : List (Str × Str × Str)) := by
  induction ns with
  | nil => rfl
  | cons n t ih => simp [List.filterMap_cons, edgeSel, ih]

theorem filterMap_edgeSel_inr (es : List (Str × Str × Str)) :
    (es.map Sum.inr).filterMap edgeSel = es := by
  induction es with
  | nil => rfl
  | cons e t ih => simp [List.filterMap_cons, edgeSel, ih]

theorem stmtsToGraph_split (ns : List Str) (es : List (Str × Str × Str)) :
    stmtsToGraph (ns.map Sum.inl ++ es.map Sum.inr) = ⟨ns, es⟩ := by
  unfold stmtsToGraph
  congr 1
  · rw [List.filterMap_append, filterMap_nodeSel_inl, filterMap_nodeSel_inr]
    simp
  · rw [List.filterMap_append, filterMap_edgeSel_inl, filterMap_edgeSel_inr]
    simp

theorem edgeStmt_chars (e : Str × Str × Str)
    (he : (∀ c ∈ e.1, goodChar c) ∧ (∀ c ∈ e.2.1, goodChar c) ∧ ∀ c ∈ e.2.2, goodChar c) :
    ∀ c ∈ edgeStmt e, c ≠ ';' ∧ c ≠ '\n' ∧ c ≠ '\t' := by
  intro c hc
  unfold edgeStmt at hc
  rcases List.mem_append.mp hc with hc' | hc'
  · rcases List.mem_append.mp hc' with hc'' | hc''
    · rcases List.mem_append.mp hc'' with hc3 | hc3
      · rcases List.mem_append.mp hc3 with hc4 | hc4
        · rcases List.mem_append.mp hc4 with hc5 | hc5
          · obtain ⟨-, h2, h3, h4⟩ := he.1 c hc5
            exact ⟨h2, h3, h4⟩
          · fin_cases hc5 <;> decide
        · obtain ⟨-, h2, h3, h4⟩ := he.2.1 c hc4
          exact ⟨h2, h3, h4⟩
      · fin_cases hc3 <;> decide
    · obtain ⟨-, h2, h3, h4⟩ := he.2.2 c hc''
      exact ⟨h2, h3, h4⟩
  · fin_cases hc' <;> decide

theorem stmts_chars (g : Digraph)
    (hnodes : ∀ n ∈ g.nodes, goodName n)
    (hedges : ∀ e ∈ g.edges,
      (∀ c ∈ e.1, goodChar c) ∧ (∀ c ∈ e.2.1, goodChar c) ∧ ∀ c ∈ e.2.2, goodChar c) :
    ∀ s ∈ stmts g, ∀ c ∈ s, c ≠ ';' ∧ c ≠ '\n' ∧ c ≠ '\t' := by
  intro s hs c hc
  unfold stmts at hs
  rcases List.mem_append.mp hs with hs' | hs'
  · obtain ⟨-, h2, h3, h4⟩ := (hnodes s hs').2 c hc
    exact ⟨h2, h3, h4⟩
  · obtain ⟨e, he, rfl⟩ := List.mem_map.mp hs'
    exact edgeStmt_chars e (hedges e he) c hc

theorem stmts_ne_nil (g : Digraph) (hnodes : ∀ n ∈ g.nodes, goodName n) :
    ∀ s ∈ stmts g, s ≠ [] := by
  intro s hs
  unfold stmts at hs
  rcases List.mem_append.mp hs with hs' | hs'
  · exact (hnodes s hs').1
  · obtain ⟨e, he, rfl⟩ := List.mem_map.mp hs'
    simp [edgeStmt]

theorem intercalate_ne_nil (c : Char) (a : Str) (t : List Str) (ha : a ≠ []) :
    List.intercalate [c] (a :: t) ≠ [] := by
  cases t with
  | nil => rw [intercalate_single]; exact ha
  | cons b t2 =>
    rw [intercalate_cons2]
    simp [ha]

/-- Parsing the normalized serialization of a graph with well-behaved
identifiers recovers the graph exactly: same node list, same edge list. -/
theorem parseDot_normalized (g : Digraph)
    (hnodes : ∀ n ∈ g.nodes, goodName n)
    (hedges : ∀ e ∈ g.edges,
      (∀ c ∈ e.1, goodChar c) ∧ (∀ c ∈ e.2.1, goodChar c) ∧ ∀ c ∈ e.2.2, goodChar c) :
    parseDot (dotHeader ++ List.intercalate [';'] (stmts g) ++ ['\x7d']) = some g := by
  have hchars := stmts_chars g hnodes hedges
  unfold parseDot
  have hpre : dotHeader.isPrefixOf
      (dotHeader ++ List.intercalate [';'] (stmts g) ++ ['\x7d']) = true := by
    rw [List.append_assoc, List.isPrefixOf_iff_prefix]
    exact List.prefix_append _ _
  have hlast : (dotHeader ++ List.intercalate [';'] (stmts g) ++ ['\x7d']).getLast?
      = some '\x7d' := by simp
  rw [if_pos (by rw [hpre, hlast]; rfl)]
  have hdrop : (dotHeader ++ List.intercalate [';'] (stmts g) ++ ['\x7d']).drop 9
      = List.intercalate [';'] (stmts g) ++ ['\x7d'] := by
    rw [List.append_assoc, show (9 : Nat) = dotHeader.length from rfl]
    simp
  rw [hdrop]
  rw [show (List.intercalate [';'] (stmts g) ++ ['\x7d']).dropLast
      = List.intercalate [';'] (stmts g) from by simp]
  cases hs : stmts g with
  | nil =>
    rw [show List.intercalate [';'] ([] : List Str) = [] from rfl]
    rw [if_pos rfl]
    unfold stmts at hs
    obtain ⟨hn, he⟩ := List.append_eq_nil.mp hs
    obtain ⟨nodes, edges⟩ := g
    simp only at hn he
    rw [List.map_eq_nil_iff] at he
    rw [hn, he]
  | cons a t =>
    have hane : a ≠ [] := stmts_ne_nil g hnodes a (by rw [hs]; simp)
    rw [if_neg (intercalate_ne_nil ';' a t hane)]
    have hsplit : (List.intercalate [';'] (a :: t)).splitOn ';' = a :: t := by
      refine List.splitOn_intercalate (a :: t) ';' ?_ (by simp)
      intro l hl hmem
      exact (hchars l (by rw [hs]; exact hl) ';' hmem).1 rfl
    rw [hsplit, ← hs]
    have hparse : parseStmts (stmts g)
        = some (g.nodes.map Sum.inl ++ g.edges.map Sum.inr) := by
      unfold stmts
      refine parseStmts_append _ _ ?_ _ _ ?_
      · refine parseStmts_edges g.edges ?_
        intro e he
        obtain ⟨h1, h2, _⟩ := hedges e he
        exact ⟨fun c hc => (h1 c hc).1, fun c hc => (h2 c hc).1⟩
      · refine parseStmts_nodes g.nodes ?_
        intro n hn c hc
        exact ((hnodes n hn).2 c hc).1
    rw [hparse]
    show some (stmtsToGraph (g.nodes.map Sum.inl ++ g.edges.map Sum.inr)) = some g
    rw [stmtsToGraph_split]

theorem getD_mem (L : List Str) (j : Nat) (h : j < L.length) : L.getD j [] ∈ L := by
  rw [List.getD_eq_getElem L [] h]
  exact List.getElem_mem h

/-- Rendering a graph with well-behaved identifiers, normalizing the text
with `str_to_dot`, and parsing the result recovers the graph exactly. -/
theorem render_parse_roundtrip (g : Digraph)
    (hnodes : ∀ n ∈ g.nodes, goodName n)
    (hedges : ∀ e ∈ g.edges,
      (∀ c ∈ e.1, goodChar c) ∧ (∀ c ∈ e.2.1, goodChar c) ∧ ∀ c ∈ e.2.2, goodChar c) :
    ∃ t, str_to_dot (render g) = some t ∧ parseDot t = some g := by
  refine ⟨_, str_to_dot_render g ?_, parseDot_normalized g hnodes hedges⟩
  intro s hs c hc
  have h := stmts_chars g hnodes hedges s hs c hc
  exact ⟨h.2.1, h.2.2⟩

/-- C7: for a square matrix and a matching list of well-behaved labels,
rendering the graph built by `make_graph`, normalizing the rendered text with
`str_to_dot`, and parsing the result as a directed-graph description yields
exactly the graph `make_graph` built — the same node list and edge list. -/
theorem make_graph_render_roundtrip (M : List (List ℚ)) (L : List Str)
    (hsq : IsSquare M) (hlen : L.length = M.length) (hne : L ≠ [])
    (hgood : ∀ n ∈ L, goodName n) :
    ∃ g, make_graph M L = some g ∧
      ∃ t, str_to_dot (render g) = some t ∧ parseDot t = some g := by
  refine ⟨_, make_graph_edges_spec M L hsq hlen hne, ?_⟩
  have hbound : ∀ p ∈ matCells 0 M, p.1.1 < L.length ∧ p.1.2 < L.length := by
    intro p hp
    have h := matCells_bound M.length M 0 hsq p hp
    obtain ⟨h1, h2⟩ := h
    constructor
    · omega
    · omega
  apply render_parse_roundtrip
  · exact hgood
  · intro e he
    obtain ⟨p, hp, rfl⟩ := List.mem_map.mp he
    obtain ⟨hb1, hb2⟩ := hbound p hp
    refine ⟨?_, ?_, ?_⟩
    · intro c hc
      exact (hgood _ (getD_mem L p.1.2 hb2)).2 c hc
    · intro c hc
      exact (hgood _ (getD_mem L p.1.1 hb1)).2 c hc
    · exact decStr_good p.2

/-- Witness for C7, at the spec's scenario matrix and labels. -/
theorem make_graph_render_roundtrip_witness :
    ∃ g, make_graph [[0, mkRat 1 2], [mkRat 3 5, 0]] [['A'], ['B']] = some g ∧
      ∃ t, str_to_dot (render g) = some t ∧ parseDot t = some g :=
  make_graph_render_roundtrip [[0, mkRat 1 2], [mkRat 3 5, 0]] [['A'], ['B']]
    (by decide) (by decide) (by decide) (by decide)

/-- C6 amended: `str_to_dot` trims whitespace, replaces every line break
with the separator, removes every tab (second conjunct: the processed
intermediate text), and then deletes two single characters at fixed offsets
— the one following the nine-character header and the second-to-last.  On
rendered graph text the `digraph` header therefore remains in the output,
together with the statement list and the closing brace; the header is kept,
not stripped. -/
theorem str_to_dot_pipeline (g : Digraph)
    (hstmt : ∀ s ∈ stmts g, ∀ c ∈ s, c ≠ '\n' ∧ c ≠ '\t') :
    str_to_dot (render g) = some (dotHeader ++ List.intercalate [';'] (stmts g) ++ ['\x7d'])
      ∧ removeChar '\t' (replaceChar '\n' ';' (pyStrip (render g)))
        = dotHeader ++ [';'] ++ ((stmts g).map (fun s => s ++ [';'])).flatten ++ ['\x7d'] :=
  ⟨str_to_dot_render g hstmt, normalize_render g hstmt⟩

/-- Witness for the amended C6 at a one-node graph. -/
theorem str_to_dot_pipeline_witness :
    str_to_dot (render ⟨[['A']], []⟩)
        = some (dotHeader ++ List.intercalate [';'] (stmts ⟨[['A']], []⟩) ++ ['\x7d'])
      ∧ removeChar '\t' (replaceChar '\n' ';' (pyStrip (render ⟨[['A']], []⟩)))
        = dotHeader ++ [';']
            ++ ((stmts ⟨[['A']], []⟩).map (fun s => s ++ [';'])).flatten ++ ['\x7d'] :=
  str_to_dot_pipeline ⟨[['A']], []⟩ (by decide)

/-- Counterexample to C6 as stated: on the rendered one-node graph `A` the
result still contains the `digraph` header, so it is not only the inner
statement list plus the closing brace. -/
theorem str_to_dot_keeps_header :
    str_to_dot (render ⟨[['A']], []⟩) = some (("digraph \x7bA\x7d").toList)
      ∧ ("digraph \x7bA\x7d").toList
          ≠ List.intercalate [';'] (stmts ⟨[['A']], []⟩) ++ ['\x7d'] := by
  constructor
  · rfl
  · decide

/-- C8: the empty matrix yields the empty graph — no nodes, no edges — and
serializing its rendered form yields the empty digraph block, which parses
back to the empty graph. -/
theorem make_graph_empty_matrix :
    make_graph [] [] = some ⟨[], []⟩
      ∧ str_to_dot (render ⟨[], []⟩) = some (("digraph \x7b\x7d").toList)
      ∧ parseDot (("digraph \x7b\x7d").toList) = some ⟨[], []⟩ := by
  refine ⟨rfl, rfl, ?_⟩
  decide

end CausalGraphUtil
